import Mathlib

/-!
Shallow embedding of the Revamp-Gnosis per-symbol streaming analytics core
(`app/features/sigma.py`, `app/features/technicals.py`,
`app/features/liquidity.py`, `app/engine/particle.py`, `app/engine/dealer.py`,
`app/engine/hazard.py`, `app/engine/forward.py`, `app/worker.py`), together
with theorems settling the specification claims about it.

Floats are modelled as real numbers; numpy aggregate operations
(`mean`, `std`, `median`, `percentile`, `clip`, `arange`) are embedded as the
corresponding exact operations on lists of reals.  Bounded `collections.deque`
buffers are embedded as lists with a capacity-respecting push.  Provider
results that may be absent are embedded as `Option`.
-/

namespace Gnosis

/-- Append to a `collections.deque(maxlen := m)`: keep the last `m` elements. -/
def pushCap {α : Type} (m : ℕ) (xs : List α) (x : α) : List α :=
  let ys := xs ++ [x]
  ys.drop (ys.length - m)

/-- Embedding of `np.arange(a, b, s)` over exact rationals. -/
def arangeQ (a b s : ℚ) : List ℚ :=
  (List.range (⌈(b - a) / s⌉.toNat)).map (fun i : ℕ => a + (i : ℚ) * s)

/-- The z-grid of `LiquidityField.__init__`:
`np.arange(min, max + 0.125, step)` with the `sigma_grid` defaults
min = −4.0, max = 4.0, step = 0.25. -/
def zGridQ : List ℚ := arangeQ (-4) (4 + 1/8) (1/4)

noncomputable section

/-- The z-grid as real numbers. -/
def zGrid : List ℝ := zGridQ.map (fun q : ℚ => (q : ℝ))

/-- Embedding of `np.clip(x, lo, hi)`. -/
def clip (lo hi x : ℝ) : ℝ := max lo (min hi x)

/-- The logistic function `1 / (1 + exp(-x))` used by the dealer filter and
the hazard model. -/
def sigmoid (x : ℝ) : ℝ := 1 / (1 + Real.exp (-x))

/-- Embedding of `np.sort` (ascending). -/
def npSort (xs : List ℝ) : List ℝ := xs.insertionSort (· ≤ ·)

/-- Embedding of `np.mean`. -/
def npMean (xs : List ℝ) : ℝ := xs.sum / xs.length

/-- Embedding of `np.std` (population standard deviation). -/
def npStd (xs : List ℝ) : ℝ :=
  Real.sqrt ((xs.map (fun x => (x - npMean xs) ^ 2)).sum / xs.length)

/-- Embedding of `np.median`: middle of the sorted data (mean of the two middles when the
length is even). -/
def npMedian (xs : List ℝ) : ℝ :=
  let s := npSort xs
  if xs.length % 2 = 1 then s.getD (xs.length / 2) 0
  else (s.getD (xs.length / 2 - 1) 0 + s.getD (xs.length / 2) 0) / 2

/-- Embedding of `np.percentile(xs, q)` with the default linear interpolation: the rank is
`(n−1)·q/100`; the result interpolates between the two neighbouring order
statistics. -/
def npPercentile (xs : List ℝ) (q : ℚ) : ℝ :=
  let s := npSort xs
  let h : ℚ := ((xs.length : ℚ) - 1) * q / 100
  let lo : ℕ := h.floor.toNat
  s.getD lo 0 + ((h : ℝ) - (h.floor : ℝ)) * (s.getD (lo + 1) 0 - s.getD lo 0)

/-! ## SigmaCalculator (`app/features/sigma.py`) -/

structure SigmaState where
  varT : ℝ
  initialized : Bool

def sigmaInit : SigmaState := ⟨0, false⟩

/-- Embedding of `SigmaCalculator.update`: EWMA variance of log-returns with
`α = 2/(alpha_decay + 1)`; returns `max(sqrt(var), 1e-6)`. -/
def sigmaUpdate (alphaDecay : ℝ) (st : SigmaState) (r : ℝ) : SigmaState × ℝ :=
  let α := 2 / (alphaDecay + 1)
  let v := if st.initialized then (1 - α) * st.varT + α * r ^ 2 else r ^ 2
  (⟨v, true⟩, max (Real.sqrt v) 1e-6)

/-- Run the estimator over a list of returns, collecting every returned σ. -/
def sigmaRun (alphaDecay : ℝ) (st : SigmaState) : List ℝ → SigmaState × List ℝ
  | [] => (st, [])
  | r :: rs =>
    let (st', s) := sigmaUpdate alphaDecay st r
    let (stF, out) := sigmaRun alphaDecay st' rs
    (stF, s :: out)

/-! ## Technicals (`app/features/technicals.py`) -/

structure BBRes where
  mb : ℝ
  ub : ℝ
  lb : ℝ
  width : ℝ
  squeeze : Bool

structure TechRes where
  vwap : ℝ
  rsi : ℝ
  bb : BBRes

structure TechState where
  vwapNum : ℝ
  vwapDenom : ℝ
  bbPrices : List ℝ
  bbWidths : List ℝ
  gains : List ℝ
  losses : List ℝ
  prevPrice : Option ℝ

def techInit : TechState := ⟨0, 0, [], [], [], [], none⟩

/-- The Bollinger `(mb, ub, lb, width)` block of `Technicals.update`. -/
def bbBlock (bbPrices : List ℝ) (price : ℝ) : ℝ × ℝ × ℝ × ℝ :=
  if bbPrices.length ≥ 20 then
    let mb := npMean bbPrices
    let sd := npStd bbPrices
    let ub := mb + 2 * sd
    let lb := mb - 2 * sd
    (mb, ub, lb, if mb > 0 then (ub - lb) / mb else 0)
  else (price, price, price, 0)

/-- The RSI block of `Technicals.update`: returns the updated gain/loss
buffers and the un-rescaled RSI value. -/
def rsiBlock (gains losses : List ℝ) (prevPrice : Option ℝ) (price : ℝ) :
    List ℝ × List ℝ × ℝ :=
  match prevPrice with
  | none => (gains, losses, 50)
  | some pp =>
    let change := price - pp
    let g := pushCap 14 gains (max change 0)
    let l := pushCap 14 losses (max (-change) 0)
    let rv :=
      if g.length = 14 then
        let avgGain := npMean g
        let avgLoss := npMean l
        if avgLoss > 0 then 100 - 100 / (1 + avgGain / avgLoss)
        else if avgGain > 0 then (100 : ℝ) else 50
      else 50
    (g, l, rv)

/-- Embedding of `Technicals.update(price, vol)`. -/
def techUpdate (st : TechState) (price vol : ℝ) : TechState × TechRes :=
  let vwapNum := st.vwapNum + price * vol
  let vwapDenom := st.vwapDenom + vol
  let vwap := if vwapDenom > 0 then vwapNum / vwapDenom else price
  let bbPrices := pushCap 20 st.bbPrices price
  let bb := bbBlock bbPrices price
  let bbw := bb.2.2.2
  let bbWidths := pushCap (2 * 390) st.bbWidths bbw
  let squeeze : Bool :=
    decide (bbWidths.length > 50) && decide (bbw ≤ npPercentile bbWidths 15)
  let rsi := rsiBlock st.gains st.losses st.prevPrice price
  (⟨vwapNum, vwapDenom, bbPrices, bbWidths, rsi.1, rsi.2.1, some price⟩,
   ⟨vwap, (rsi.2.2 - 50) / 50, ⟨bb.1, bb.2.1, bb.2.2.1, bbw, squeeze⟩⟩)

/-! ## Ichimoku (`app/features/technicals.py`) -/

/-- Maximum of a nonempty buffer (the Python guards make the empty case dead). -/
def maxD : List ℝ → ℝ
  | [] => 0
  | x :: t => t.foldl max x

/-- Minimum of a nonempty buffer. -/
def minD : List ℝ → ℝ
  | [] => 0
  | x :: t => t.foldl min x

structure IchiState where
  highs9 : List ℝ
  lows9 : List ℝ
  highs26 : List ℝ
  lows26 : List ℝ
  highs52 : List ℝ
  lows52 : List ℝ
  history : List (ℝ × ℝ)

def ichiInit : IchiState := ⟨[], [], [], [], [], [], []⟩

structure IchiRes where
  tenkan : ℝ
  kijun : ℝ
  spanA : ℝ
  spanB : ℝ
  state : ℤ
  thick : ℝ

/-- Embedding of `Ichimoku.update(high, low, close)`. -/
def ichiUpdate (st : IchiState) (high low close : ℝ) : IchiState × IchiRes :=
  let h9 := pushCap 9 st.highs9 high
  let l9 := pushCap 9 st.lows9 low
  let h26 := pushCap 26 st.highs26 high
  let l26 := pushCap 26 st.lows26 low
  let h52 := pushCap 52 st.highs52 high
  let l52 := pushCap 52 st.lows52 low
  let tenkan := if h9.isEmpty then (high + low) / 2 else (maxD h9 + minD l9) / 2
  let kijun := if h26.isEmpty then (high + low) / 2 else (maxD h26 + minD l26) / 2
  let spanA := (tenkan + kijun) / 2
  let spanB := if h52.isEmpty then (high + low) / 2 else (maxD h52 + minD l52) / 2
  let history := pushCap 60 st.history (spanA, spanB)
  let cloud :=
    if history.length ≥ 26 then history.getD (history.length - 26) (0, 0)
    else (spanA, spanB)
  let state : ℤ :=
    if close > max cloud.1 cloud.2 then 1
    else if close < min cloud.1 cloud.2 then -1 else 0
  (⟨h9, l9, h26, l26, h52, l52, history⟩,
   ⟨tenkan, kijun, cloud.1, cloud.2, state, |cloud.1 - cloud.2|⟩)

/-! ## LiquidityField (`app/features/liquidity.py`) -/

structure BBComp where
  mb : ℝ
  ub : ℝ
  lb : ℝ

/-- The `components` mapping built by the worker: an optional `vwap`
reference price and an optional Bollinger block. -/
structure Components where
  vwap : Option ℝ
  bb : Option BBComp

/-- Embedding of `LiquidityField.gaussian_kernel(u, bandwidth)`. -/
def gaussianKernel (u bw : ℝ) : ℝ := Real.exp (-(0.5) * (u / bw) ^ 2)

/-- The per-grid-point unnormalized accumulation of
`LiquidityField.compute_field` (the two `if 'vwap'/'bb' in components`
blocks, evaluated at one grid point `z`). -/
def liqRaw (wVwap wBb logp σ : ℝ) (comps : Components) (z : ℝ) : ℝ :=
  (match comps.vwap with
   | none => 0
   | some pv => wVwap * (1.0 * gaussianKernel (z - (Real.log pv - logp) / σ) 0.35)) +
  (match comps.bb with
   | none => 0
   | some bb =>
     wBb * (1.0 * gaussianKernel (z - (Real.log bb.mb - logp) / σ) 0.30 +
            0.7 * gaussianKernel (z - (Real.log bb.ub - logp) / σ) 0.30 +
            0.7 * gaussianKernel (z - (Real.log bb.lb - logp) / σ) 0.30))

/-- The MAD guard of `compute_field`: `mad if mad > 1e-9 else 1.0`. -/
def madDivisor (mad : ℝ) : ℝ := if mad > 1e-9 then mad else 1

/-- Embedding of `LiquidityField.compute_field(current_log_price, sigma, components)`:
kernel accumulation, robust standardization by median/MAD, clip to [−6, 6]. -/
def liqComputeField (wVwap wBb : ℝ) (grid : List ℝ) (logp σ : ℝ)
    (comps : Components) : List ℝ :=
  let lTotal := grid.map (liqRaw wVwap wBb logp σ comps)
  let med := npMedian lTotal
  let mad := npMedian (lTotal.map (fun x => |x - med|))
  lTotal.map (fun x => clip (-6) 6 ((x - med) / madDivisor mad))

/-- Embedding of `LiquidityField.get_pool_proximity(field)`: the value at the centre
index `len(field) // 2`. -/
def getPoolProximity (field : List ℝ) : ℝ := field.getD (field.length / 2) 0

/-! ## ParticleMapper (`app/engine/particle.py`) -/

structure ParticleRes where
  s : ℝ
  pressure : ℝ
  inertia : ℝ
  annihilation : ℝ

/-- Embedding of `ParticleMapper.update`: returns the retained state `s` and the result
record. -/
def particleUpdate (ε wShock : ℝ) (spread ask bid microvol qsize ofi dealer flow shock : ℝ) :
    ℝ × ParticleRes :=
  let s0 := 0.5 * Real.log (ask / bid)
  let denom := ε + spread + microvol - qsize
  let inertia := 1 / (if denom > 1e-6 then denom else 1e-6)
  let pressure := 1.0 * ofi + 0.7 * dealer + 0.5 * flow + wShock * shock
  let cons := 0.20 * |pressure| / inertia
  let s := max 0 (s0 - cons)
  (s, ⟨s, pressure, inertia, 1.0 - s / (s0 + 1e-6)⟩)

/-! ## DealerFilter (`app/engine/dealer.py`) -/

structure DealerState where
  p : ℝ
  q : ℝ

def dealerInit : DealerState := ⟨0.5, 0.5⟩

structure DealerRes where
  p : ℝ
  q : ℝ
  feedback : ℝ

/-- Embedding of `DealerFilter.update(z_features, gex_abs_norm, is_stale)`. -/
def dealerUpdate (stay flip : ℝ) (st : DealerState) (zFeatures : List ℝ)
    (gexAbsNorm : ℝ) (isStale : Bool) : DealerState × DealerRes :=
  let E := zFeatures.sum
  let pPrior := st.p * stay + (1 - st.p) * flip
  let logitPost := Real.log (pPrior / (1 - pPrior + 1e-9)) - E
  let p := 1 / (1 + Real.exp (-logitPost))
  let q := 1 / (1 + Real.exp (-(1.0 + 2.0 * |2 * p - 1|)))
  let feedback := (2 * p - 1) * gexAbsNorm * q
  (⟨p, q⟩, ⟨p, q, if isStale then feedback * 0.3 else feedback⟩)

/-! ## HazardModel (`app/engine/hazard.py`) -/

/-- Embedding of `HazardModel.compute(regime, A, pressure_inertia_ratio, squeeze,
pool_prox, d_vwap, d_kijun)` with intercepts `i0, i1, i2` (indexed by
regime: `1 if regime == 1 else (2 if regime == -1 else 0)`) and the four
configured coefficients. -/
def hazardCompute (i0 i1 i2 cA cPL cSq cPool : ℝ) (regime : ℤ)
    (A pir : ℝ) (squeeze : Bool) (poolProx dVwap dKijun : ℝ) : ℝ :=
  let r := if regime = 1 then i1 else if regime = -1 then i2 else i0
  let logit := r + cA * A + cPL * pir +
    cSq * (if squeeze then 1.0 else 0.0) + cPool * poolProx
  1 / (1 + Real.exp (-logit))

/-! ## ForwardMap (`app/engine/forward.py`) -/

structure FwdEntry where
  k : ℕ
  mass : ℝ
  dist : List ℝ

/-- The `for k in range(1, max_h + 1)` loop of `ForwardMap.compute`,
as fuel recursion: geometric mass accumulation with a break once
`cum_mass ≥ mass_threshold`.  The per-horizon distribution `hzk` does not
depend on the loop counter in the source, so it is computed once. -/
def fwdGo (lam θ : ℝ) (hzk : List ℝ) :
    ℕ → ℕ → ℝ → ℝ → List FwdEntry → List FwdEntry × ℝ
  | 0, _, _, cum, acc => (acc.reverse, cum)
  | fuel + 1, k, surv, cum, acc =>
    let g := lam * surv
    let surv' := surv * (1 - lam)
    let cum' := cum + g
    let acc' := FwdEntry.mk k g hzk :: acc
    if cum' ≥ θ then (acc'.reverse, cum')
    else fwdGo lam θ hzk fuel (k + 1) surv' cum' acc'

/-- The per-horizon distribution of `ForwardMap.compute`: the standard
Gaussian `h0` on the grid, multiplicatively tilted by `exp(beta_L · L)` and
renormalized.  It does not depend on the horizon `k`. -/
def fwdDist (betaL : ℝ) (grid lvals : List ℝ) : List ℝ :=
  let h0 := grid.map (fun z => Real.exp (-(0.5) * z ^ 2) / Real.sqrt (2 * Real.pi))
  let hRaw := List.zipWith (fun h l => h * Real.exp (betaL * l)) h0 lvals
  hRaw.map (fun x => x / hRaw.sum)

/-- Embedding of `ForwardMap.compute(current_lambda, current_price, current_sigma,
l_total_func)`: the tilted Gaussian distribution paired with the geometric
survival masses.  `price` and `sigma` are accepted but unused, as in the
source. -/
def fwdCompute (betaL : ℝ) (maxH : ℕ) (θ : ℝ) (grid : List ℝ)
    (lam price σ : ℝ) (lvals : List ℝ) : List FwdEntry × ℝ :=
  fwdGo lam θ (fwdDist betaL grid lvals) maxH 1 1 0 []

/-! ## SymbolProcessor (`app/worker.py`) -/

/-- The configuration parameters consumed by the core pipeline
(loaded from yaml in the source; here passed explicitly). -/
structure Config where
  alphaDecay : ℝ
  wVwap : ℝ
  wBb : ℝ
  eps : ℝ
  wShock : ℝ
  stay : ℝ
  flip : ℝ
  i0 : ℝ
  i1 : ℝ
  i2 : ℝ
  cA : ℝ
  cPL : ℝ
  cSq : ℝ
  cPool : ℝ
  betaL : ℝ
  maxH : ℕ
  threshold : ℝ

structure Bar where
  timestamp : ℕ
  high : ℝ
  low : ℝ
  close : ℝ
  volume : ℝ

structure Quote where
  askPrice : ℝ
  bidPrice : ℝ

structure ProcState where
  sigma : SigmaState
  tech : TechState
  ichi : IchiState
  partS : ℝ
  dealer : DealerState
  lastLog : Option ℝ

def procInit : ProcState := ⟨sigmaInit, techInit, ichiInit, 0, dealerInit, none⟩

/-- The emitted `MarketState` snapshot (`app/storage/models.py`), restricted
to the analytic fields assembled by `SymbolProcessor.process`. -/
structure MarketState where
  timestamp : ℕ
  price : ℝ
  logPrice : ℝ
  returns : ℝ
  sigma : ℝ
  vwap : ℝ
  rsi : ℝ
  bbUpper : ℝ
  bbLower : ℝ
  bbWidth : ℝ
  ichiCloudState : ℤ
  ichiCloudThick : ℝ
  spread : ℝ
  pressure : ℝ
  inertia : ℝ
  annihilation : ℝ
  dealerP : ℝ
  dealerQ : ℝ
  dealerFeedback : ℝ
  lambdaT : ℝ
  poolField : List ℝ
  forwardMap : List FwdEntry × ℝ

/-- Embedding of `SymbolProcessor.process`: one tick.  The provider's bar is `Option`al
(`if not bar: return None`); the quote is consumed with the literal spread
0.01 and zeroed flow inputs, and the hazard call hardwires `squeeze = False`
and `pool_prox = 0`, exactly as in `worker.py` lines 30–57.  The log-return
is `log_p - last_log if self.last_log else 0.0`: a Python truthiness test,
so a stored last log-price of exactly 0 behaves like the first tick. -/
def processTick (cfg : Config) (grid : List ℝ) (st : ProcState)
    (bar? : Option Bar) (quote : Quote) : ProcState × Option MarketState :=
  match bar? with
  | none => (st, none)
  | some bar =>
    let price := bar.close
    let logp := Real.log price
    let ret :=
      match st.lastLog with
      | none => 0
      | some x => if x = 0 then 0 else logp - x
    let sig := sigmaUpdate cfg.alphaDecay st.sigma ret
    let currSig := sig.2
    let tech := techUpdate st.tech price bar.volume
    let tRes := tech.2
    let ichi := ichiUpdate st.ichi bar.high bar.low price
    let iRes := ichi.2
    let comps : Components := ⟨some tRes.vwap, some ⟨tRes.bb.mb, tRes.bb.ub, tRes.bb.lb⟩⟩
    let lField := liqComputeField cfg.wVwap cfg.wBb grid logp currSig comps
    let part := particleUpdate cfg.eps cfg.wShock 0.01 quote.askPrice quote.bidPrice 0 0 0 0 0 0
    let pRes := part.2
    let lam := hazardCompute cfg.i0 cfg.i1 cfg.i2 cfg.cA cfg.cPL cfg.cSq cfg.cPool
      iRes.state pRes.annihilation 0 false 0 0 0
    let fwd := fwdCompute cfg.betaL cfg.maxH cfg.threshold grid lam price currSig lField
    (⟨sig.1, tech.1, ichi.1, part.1, st.dealer, some logp⟩,
     some ⟨bar.timestamp, price, logp, ret, currSig, tRes.vwap, tRes.rsi,
           tRes.bb.ub, tRes.bb.lb, tRes.bb.width, iRes.state, iRes.thick,
           0.01, pRes.pressure, pRes.inertia, pRes.annihilation,
           0.5, 0.5, 0, lam, lField, fwd⟩)

end

/-! ## Theorems -/

/-- Every σ produced by a run of the estimator is ≥ 1e-6. -/
theorem sigmaRun_all_ge (decay : ℝ) (rs : List ℝ) :
    ∀ st : SigmaState,
      ((sigmaRun decay st rs).2).all (fun s => decide ((1e-6 : ℝ) ≤ s)) = true := by
  induction rs with
  | nil => intro st; simp [sigmaRun]
  | cons r rs ih =>
    intro st
    simp only [sigmaRun, List.all_cons, Bool.and_eq_true, decide_eq_true_eq]
    exact ⟨le_max_right _ _, ih _⟩

/-- C5: `SigmaCalculator.update` sets `v := r²` on the first call (state not
yet initialized) and `v := (1−α)·v + α·r²` with `α = 2/(alpha_decay+1)` on
every later call, returns `max(√v, 1e-6)`, and consequently every σ returned
over any input sequence of log-returns is ≥ 1e-6. -/
theorem C5_sigma_recurrence_and_floor :
    (∀ (decay : ℝ) (st : SigmaState) (r : ℝ),
      (sigmaUpdate decay st r).1.varT =
        (if st.initialized then
          (1 - 2 / (decay + 1)) * st.varT + 2 / (decay + 1) * r ^ 2
         else r ^ 2) ∧
      (sigmaUpdate decay st r).1.initialized = true ∧
      (sigmaUpdate decay st r).2 =
        max (Real.sqrt ((sigmaUpdate decay st r).1.varT)) 1e-6 ∧
      (1e-6 : ℝ) ≤ (sigmaUpdate decay st r).2) ∧
    (∀ (decay : ℝ) (rs : List ℝ),
      ((sigmaRun decay sigmaInit rs).2).all (fun s => decide ((1e-6 : ℝ) ≤ s)) = true) := by
  refine ⟨fun decay st r => ⟨rfl, rfl, rfl, le_max_right _ _⟩, fun decay rs => ?_⟩
  exact sigmaRun_all_ge decay rs sigmaInit

/-- C3: when the provider returns no bar for the tick, `process` emits no
snapshot and leaves the processor state exactly unchanged. -/
theorem C3_no_bar_emits_nothing_state_unchanged
    (cfg : Config) (grid : List ℝ) (st : ProcState) (q : Quote) :
    processTick cfg grid st none q = (st, none) := rfl

/-- C10: for `ask ≥ bid > 0`, the retained particle state is ≥ 0 after the
call and the returned annihilation lies in [0, 1]. -/
theorem C10_particle_state_and_annihilation_bounds
    (ε wShock spread ask bid microvol qsize ofi dealer flow shock : ℝ)
    (hbid : 0 < bid) (hba : bid ≤ ask) :
    0 ≤ (particleUpdate ε wShock spread ask bid microvol qsize ofi dealer flow shock).1 ∧
    0 ≤ (particleUpdate ε wShock spread ask bid microvol qsize ofi dealer flow shock).2.annihilation ∧
    (particleUpdate ε wShock spread ask bid microvol qsize ofi dealer flow shock).2.annihilation ≤ 1 := by
  simp only [particleUpdate]
  have hs0 : 0 ≤ 0.5 * Real.log (ask / bid) := by
    have h1 : (1 : ℝ) ≤ ask / bid := (one_le_div hbid).mpr hba
    have := Real.log_nonneg h1
    nlinarith
  set s0 := 0.5 * Real.log (ask / bid) with hs0def
  have hinertia : 0 < 1 / (if ε + spread + microvol - qsize > 1e-6 then ε + spread + microvol - qsize else 1e-6) := by
    apply one_div_pos.mpr
    split
    · linarith [show (1e-6 : ℝ) > 0 by norm_num]
    · norm_num
  set inertia := 1 / (if ε + spread + microvol - qsize > 1e-6 then ε + spread + microvol - qsize else 1e-6)
  set pressure := 1.0 * ofi + 0.7 * dealer + 0.5 * flow + wShock * shock
  have hcons : 0 ≤ 0.20 * |pressure| / inertia :=
    div_nonneg (by positivity) (le_of_lt hinertia)
  set cons := 0.20 * |pressure| / inertia
  have hsle : max 0 (s0 - cons) ≤ s0 := max_le hs0 (by linarith)
  have hsge : 0 ≤ max 0 (s0 - cons) := le_max_left _ _
  have hday : (0 : ℝ) < s0 + 1e-6 := by
    have : (0 : ℝ) < 1e-6 := by norm_num
    linarith
  refine ⟨hsge, ?_, ?_⟩
  · have : max 0 (s0 - cons) / (s0 + 1e-6) ≤ 1 := by
      rw [div_le_one hday]; linarith
    linarith
  · have : 0 ≤ max 0 (s0 - cons) / (s0 + 1e-6) := div_nonneg hsge (le_of_lt hday)
    linarith

/-- Witness for C10 at `ask = bid = 1`. -/
theorem C10_witness :
    (0 : ℝ) < 1 ∧ (1 : ℝ) ≤ 1 ∧
    0 ≤ (particleUpdate 0 0 0 1 1 0 0 0 0 0 0).1 ∧
    0 ≤ (particleUpdate 0 0 0 1 1 0 0 0 0 0 0).2.annihilation ∧
    (particleUpdate 0 0 0 1 1 0 0 0 0 0 0).2.annihilation ≤ 1 :=
  ⟨by norm_num, by norm_num,
   C10_particle_state_and_annihilation_bounds 0 0 0 1 1 0 0 0 0 0 0
     (by norm_num) (by norm_num)⟩

/-- C1 (amended): on every processed tick the emitted λ is the hazard model
applied to `(ichi.state, part.annihilation, 0, False, 0, 0, 0)` — the
squeeze and pool-proximity inputs are hardwired to `False` and `0` in
`worker.py`, not wired to `tech.bb.squeeze` and `L[centre]`. -/
theorem C1_amended_lambda_hardwires_squeeze_and_pool
    (cfg : Config) (grid : List ℝ) (st : ProcState) (bar : Bar) (q : Quote) :
    ((processTick cfg grid st (some bar) q).2.map (fun s => s.lambdaT)) =
      some (hazardCompute cfg.i0 cfg.i1 cfg.i2 cfg.cA cfg.cPL cfg.cSq cfg.cPool
        (ichiUpdate st.ichi bar.high bar.low bar.close).2.state
        (particleUpdate cfg.eps cfg.wShock 0.01 q.askPrice q.bidPrice 0 0 0 0 0 0).2.annihilation
        0 false 0 0 0) := rfl

/-- A capacity-respecting push always ends with the pushed element. -/
theorem pushCap_getLast? {α : Type} (m : ℕ) (hm : 1 ≤ m) (xs : List α) (x : α) :
    (pushCap m xs x).getLast? = some x := by
  unfold pushCap
  rw [List.drop_append_of_le_length (by simp; omega)]
  exact List.getLast?_concat _

/-- C9: the cloud pair used for the state is the history entry 26 slots from
the end once the history holds ≥ 26 entries (the current
`(span_a_now, span_b_now)` pair while it holds fewer), the entry just pushed
is the current pair, and the state is +1 / −1 / 0 by comparing the close to
the cloud. -/
theorem C9_ichimoku_cloud_selection_and_state
    (st : IchiState) (high low close : ℝ) :
    ((ichiUpdate st high low close).2.spanA, (ichiUpdate st high low close).2.spanB) =
      (if 26 ≤ (ichiUpdate st high low close).1.history.length then
        (ichiUpdate st high low close).1.history.getD
          ((ichiUpdate st high low close).1.history.length - 26) (0, 0)
       else
        (((ichiUpdate st high low close).2.tenkan + (ichiUpdate st high low close).2.kijun) / 2,
         if ((ichiUpdate st high low close).1.highs52).isEmpty then (high + low) / 2
         else (maxD (ichiUpdate st high low close).1.highs52 +
               minD (ichiUpdate st high low close).1.lows52) / 2)) ∧
    (ichiUpdate st high low close).1.history.getLast? =
      some (((ichiUpdate st high low close).2.tenkan + (ichiUpdate st high low close).2.kijun) / 2,
            if ((ichiUpdate st high low close).1.highs52).isEmpty then (high + low) / 2
            else (maxD (ichiUpdate st high low close).1.highs52 +
                  minD (ichiUpdate st high low close).1.lows52) / 2) ∧
    (ichiUpdate st high low close).2.state =
      (if close > max (ichiUpdate st high low close).2.spanA (ichiUpdate st high low close).2.spanB
       then 1
       else if close < min (ichiUpdate st high low close).2.spanA (ichiUpdate st high low close).2.spanB
       then -1 else 0) := by
  refine ⟨rfl, ?_, rfl⟩
  exact pushCap_getLast? 60 (by norm_num) _ _

/-- Reading a constant list via `getD` gives that constant, whatever the index. -/
theorem getD_replicate {α : Type} (n i : ℕ) (a : α) :
    (List.replicate n a).getD i a = a := by
  induction n generalizing i with
  | zero => simp [List.getD]
  | succ n ih =>
    cases i with
    | zero => simp [List.replicate_succ]
    | succ i => simp only [List.replicate_succ, List.getD_cons_succ]; exact ih i

/-- Sorting a constant list returns it unchanged. -/
theorem npSort_replicate (n : ℕ) (a : ℝ) :
    npSort (List.replicate n a) = List.replicate n a :=
  List.perm_replicate.mp (List.perm_insertionSort _ _)

/-- The 15th percentile of a constant buffer is that constant. -/
theorem npPercentile_replicate_zero (n : ℕ) :
    npPercentile (List.replicate n (0 : ℝ)) 15 = 0 := by
  unfold npPercentile
  rw [npSort_replicate]
  simp [getD_replicate, List.length_replicate]

/-- The accumulator state used as the C4 counterexample input: 49 buffered
widths, empty Bollinger price window. -/
def techStateCex : TechState := ⟨0, 0, [], List.replicate 49 0, [], [], none⟩

/-- C4 counterexample: with 49 buffered widths and a fresh price (current
width 0), the buffer reaches exactly 50 entries and the current width is ≤
its 15th percentile, yet the returned squeeze flag is `false` — the code
requires *more than* 50 entries, refuting "at least 50". -/
theorem C4_counterexample :
    ¬ (∀ (st : TechState) (price vol : ℝ),
        ((techUpdate st price vol).2.bb.squeeze = true ↔
          (50 ≤ (techUpdate st price vol).1.bbWidths.length ∧
           (techUpdate st price vol).2.bb.width ≤
             npPercentile ((techUpdate st price vol).1.bbWidths) 15))) := by
  intro h
  have e1 : (techUpdate techStateCex 1 1).1.bbWidths = List.replicate 50 0 := rfl
  have e2 : (techUpdate techStateCex 1 1).2.bb.squeeze = false := rfl
  have e3 : (techUpdate techStateCex 1 1).2.bb.width = 0 := rfl
  have hlen : 50 ≤ (techUpdate techStateCex 1 1).1.bbWidths.length := by
    rw [e1]; simp
  have hpct : (techUpdate techStateCex 1 1).2.bb.width ≤
      npPercentile ((techUpdate techStateCex 1 1).1.bbWidths) 15 := by
    rw [e3, e1, npPercentile_replicate_zero]
  have hsq := (h techStateCex 1 1).mpr ⟨hlen, hpct⟩
  rw [e2] at hsq
  exact Bool.false_ne_true hsq

/-- C4 (amended): the squeeze flag is true iff the widths buffer (current
width included) holds *more than* 50 entries and the current width is ≤ the
15th percentile of the buffer. -/
theorem C4_amended_squeeze_iff (st : TechState) (price vol : ℝ) :
    ((techUpdate st price vol).2.bb.squeeze = true ↔
      (50 < (techUpdate st price vol).1.bbWidths.length ∧
       (techUpdate st price vol).2.bb.width ≤
         npPercentile ((techUpdate st price vol).1.bbWidths) 15)) := by
  simp [techUpdate]

/-- The concrete configuration used by the closed-form theorems below. -/
noncomputable def cfgA : Config :=
  ⟨120, 1, 1, 1/20, 0, 9/10, 1/10, 0, 0, 0, 0, 0, 0, 1, 1, 20, 19/20⟩

/-- C8 failing input: process a tick with close = 1 (stored log price 0),
then a tick with close = 2.  The log-return passed on and recorded in the
second snapshot is 0 — the truthiness test `if self.last_log` treats a log
price of exactly 0 as "no previous tick" — whereas the claim's value
`ln 2 − ln 1` is nonzero. -/
theorem C8_truthiness_bug_failing_input :
    ((processTick cfgA zGrid
        (processTick cfgA zGrid procInit (some ⟨0, 1, 1, 1, 1⟩) ⟨1, 1⟩).1
        (some ⟨1, 2, 2, 2, 1⟩) ⟨1, 1⟩).2.map (fun s => s.returns)) = some 0 ∧
    Real.log 2 - Real.log 1 ≠ 0 := by
  constructor
  · simp only [processTick, Option.map_some]
    simp [Real.log_one]
  · rw [Real.log_one]
    have := Real.log_pos (by norm_num : (1 : ℝ) < 2)
    intro hc
    rw [sub_zero] at hc
    exact absurd hc (ne_of_gt this)

/-- The default z-grid has 33 points. -/
theorem zGridQ_length : zGridQ.length = 33 := by
  rw [zGridQ, arangeQ, List.length_map, List.length_range]
  rw [show ((4 + 1/8 : ℚ) - (-4)) / (1/4) = 65/2 by norm_num]
  rw [show (⌈(65/2 : ℚ)⌉ : ℤ) = 33 by rw [Int.ceil_eq_iff]; norm_num]
  rfl

/-- The default grid, written out as a map over `List.range`. -/
theorem zGrid_eq_range :
    zGrid = (List.range 33).map (fun i : ℕ => (-4 : ℝ) + (i : ℝ) * (1/4)) := by
  rw [zGrid, zGridQ, arangeQ, List.map_map]
  have h33 : (⌈((4 + 1/8 : ℚ) - (-4)) / (1/4)⌉.toNat) = 33 := by
    rw [show ((4 + 1/8 : ℚ) - (-4)) / (1/4) = 65/2 by norm_num]
    rw [show (⌈(65/2 : ℚ)⌉ : ℤ) = 33 by rw [Int.ceil_eq_iff]; norm_num]
    rfl
  rw [h33]
  apply List.map_congr_left
  intro i _
  simp only [Function.comp_apply]
  push_cast
  norm_num

/-- C6: for every call with σ > 0, the returned field has the grid's length
(33 points for the default grid), every value lies in [−6, 6], and the MAD
divisor is replaced by 1.0 whenever MAD < 1e-9. -/
theorem C6_liquidity_field_length_and_bounds
    (wVwap wBb : ℝ) (grid : List ℝ) (logp σ : ℝ) (comps : Components)
    (hσ : 0 < σ) :
    (liqComputeField wVwap wBb grid logp σ comps).length = grid.length ∧
    zGrid.length = 33 ∧
    (∀ x ∈ liqComputeField wVwap wBb grid logp σ comps, -6 ≤ x ∧ x ≤ 6) ∧
    (∀ mad : ℝ, mad < 1e-9 → madDivisor mad = 1) := by
  refine ⟨by simp [liqComputeField],
    by simp only [zGrid, List.length_map, zGridQ_length], ?_, ?_⟩
  · intro x hx
    simp only [liqComputeField, List.mem_map] at hx
    obtain ⟨y, -, rfl⟩ := hx
    unfold clip
    constructor
    · exact le_max_left _ _
    · exact max_le (by norm_num) (min_le_left _ _)
  · intro mad hmad
    unfold madDivisor
    rw [if_neg]
    intro hc
    have : (1e-9 : ℝ) < 1e-9 := lt_trans hc hmad
    exact lt_irrefl _ this

/-- Witness for C6 at σ = 1 on the default grid with empty components. -/
theorem C6_witness :
    (0 : ℝ) < 1 ∧
    ((liqComputeField 1 1 zGrid 0 1 ⟨none, none⟩).length = zGrid.length ∧
     zGrid.length = 33 ∧
     (∀ x ∈ liqComputeField 1 1 zGrid 0 1 ⟨none, none⟩, -6 ≤ x ∧ x ≤ 6) ∧
     (∀ mad : ℝ, mad < 1e-9 → madDivisor mad = 1)) :=
  ⟨by norm_num, C6_liquidity_field_length_and_bounds 1 1 zGrid 0 1 ⟨none, none⟩ (by norm_num)⟩

/-- Monotone comparison for the raw logistic expression. -/
theorem logisticRaw_lt {x y : ℝ} (h : x < y) :
    1 / (1 + Real.exp (-x)) < 1 / (1 + Real.exp (-y)) := by
  have he : Real.exp (-y) < Real.exp (-x) := Real.exp_lt_exp.mpr (by linarith)
  have hy : 0 < 1 + Real.exp (-y) := by positivity
  exact one_div_lt_one_div_of_lt hy (by linarith)

/-- Non-strict version. -/
theorem logisticRaw_le {x y : ℝ} (h : x ≤ y) :
    1 / (1 + Real.exp (-x)) ≤ 1 / (1 + Real.exp (-y)) := by
  rcases eq_or_lt_of_le h with rfl | h'
  · exact le_refl _
  · exact le_of_lt (logisticRaw_lt h')

/-- C7: (a) for a fixed filter state the posterior p is strictly decreasing
in the evidence sum Σ z_features; (b) from any state with prior p ∈ [0, ½]
under Markov transition probabilities (0 ≤ flip ≤ stay, stay + flip ≤ 1),
one update with evidence sum +3 and abs_gex_norm = 1 drives p strictly
below 1/20 (while p stays > 0), makes the returned feedback negative, and
pushes q above its initial ½ while keeping q < 1. -/
theorem C7_dealer_posterior_monotone_and_flip_scenario :
    (∀ (stay flip : ℝ) (st : DealerState) (gex : ℝ) (stale : Bool)
       (z1 z2 : List ℝ), z1.sum < z2.sum →
       (dealerUpdate stay flip st z2 gex stale).1.p <
         (dealerUpdate stay flip st z1 gex stale).1.p) ∧
    (∀ (stay flip : ℝ) (st : DealerState) (zs : List ℝ),
       0 ≤ flip → flip ≤ stay → stay + flip ≤ 1 →
       0 ≤ st.p → st.p ≤ 1/2 → zs.sum = 3 →
       0 < (dealerUpdate stay flip st zs 1 false).1.p ∧
       (dealerUpdate stay flip st zs 1 false).1.p < 1/20 ∧
       (dealerUpdate stay flip st zs 1 false).2.feedback < 0 ∧
       1/2 < (dealerUpdate stay flip st zs 1 false).1.q ∧
       (dealerUpdate stay flip st zs 1 false).1.q < 1) := by
  constructor
  · intro stay flip st gex stale z1 z2 hz
    simp only [dealerUpdate]
    exact logisticRaw_lt (by linarith)
  · intro stay flip st zs hf hfs hsum1 hp0 hp hzs
    simp only [dealerUpdate, hzs]
    set pPrior := st.p * stay + (1 - st.p) * flip with hPdef
    have hstay : 0 ≤ stay := le_trans hf hfs
    have hpp0 : 0 ≤ pPrior := by
      have h1 : 0 ≤ st.p * stay := mul_nonneg hp0 hstay
      have h2 : 0 ≤ (1 - st.p) * flip := mul_nonneg (by linarith) hf
      linarith
    have hpph : pPrior ≤ 1/2 := by
      have h1 : st.p * (stay - flip) ≤ (1/2) * (stay - flip) :=
        mul_le_mul_of_nonneg_right hp (by linarith)
      nlinarith
    have hden : (0 : ℝ) < 1 - pPrior + 1e-9 := by norm_num; linarith
    have hratio0 : 0 ≤ pPrior / (1 - pPrior + 1e-9) := div_nonneg hpp0 (le_of_lt hden)
    have hratio1 : pPrior / (1 - pPrior + 1e-9) ≤ 1 := by
      rw [div_le_one hden]; norm_num; linarith
    have hlog : Real.log (pPrior / (1 - pPrior + 1e-9)) ≤ 0 :=
      Real.log_nonpos hratio0 hratio1
    set logitPost := Real.log (pPrior / (1 - pPrior + 1e-9)) - 3 with hLdef
    have hlp : logitPost ≤ -3 := by rw [hLdef]; linarith
    set p := 1 / (1 + Real.exp (-logitPost)) with hpdef
    have hppos : 0 < p := by rw [hpdef]; positivity
    have hexp3 : (19 : ℝ) < Real.exp 3 := by
      have h1 : (2.7182818283 : ℝ) < Real.exp 1 := Real.exp_one_gt_d9
      have h3 : Real.exp 3 = Real.exp 1 * Real.exp 1 * Real.exp 1 := by
        rw [← Real.exp_add, ← Real.exp_add]; norm_num
      nlinarith [Real.exp_pos 1]
    have hplt : p < 1/20 := by
      have h1 : p ≤ 1 / (1 + Real.exp 3) := by
        rw [hpdef]
        have := logisticRaw_le (show logitPost ≤ (-3 : ℝ) from hlp)
        simpa using this
      have h2 : 1 / (1 + Real.exp 3) < 1/20 := by
        rw [div_lt_div_iff₀ (by positivity) (by norm_num)]
        linarith
      linarith
    set q := 1 / (1 + Real.exp (-(1.0 + 2.0 * |2 * p - 1|))) with hqdef
    have hqhalf : 1/2 < q := by
      have ht : 0 < 1.0 + 2.0 * |2 * p - 1| := by positivity
      have he : Real.exp (-(1.0 + 2.0 * |2 * p - 1|)) < 1 := by
        have h0 := Real.exp_lt_exp.mpr (show -(1.0 + 2.0 * |2 * p - 1|) < 0 by linarith)
        simpa [Real.exp_zero] using h0
      rw [hqdef]
      rw [lt_div_iff₀ (by positivity)]
      linarith
    have hqlt : q < 1 := by
      rw [hqdef, div_lt_one (by positivity)]
      have := Real.exp_pos (-(1.0 + 2.0 * |2 * p - 1|))
      linarith
    have hqpos : 0 < q := by linarith
    refine ⟨hppos, hplt, ?_, hqhalf, hqlt⟩
    have h2p : 2 * p - 1 < 0 := by linarith
    have : (2 * p - 1) * 1 * q < 0 := by
      rw [mul_one]
      exact mul_neg_of_neg_of_pos h2p hqpos
    simpa using this

/-- Witness for C7: part (a) at z1 = [0], z2 = [1]; part (b) at
stay = 0.9, flip = 0.1, p = q = ½, z_features = [3]. -/
theorem C7_witness :
    (([ (0 : ℝ) ].sum < ([ (1 : ℝ) ].sum)) ∧
      (dealerUpdate 0.9 0.1 ⟨0.5, 0.5⟩ [(1 : ℝ)] 1 false).1.p <
        (dealerUpdate 0.9 0.1 ⟨0.5, 0.5⟩ [(0 : ℝ)] 1 false).1.p) ∧
    ((0 : ℝ) ≤ 0.1 ∧ (0.1 : ℝ) ≤ 0.9 ∧ (0.9 : ℝ) + 0.1 ≤ 1 ∧
      (0 : ℝ) ≤ (0.5 : ℝ) ∧ (0.5 : ℝ) ≤ 1/2 ∧ ([ (3 : ℝ) ].sum = 3) ∧
      (0 < (dealerUpdate 0.9 0.1 ⟨0.5, 0.5⟩ [(3 : ℝ)] 1 false).1.p ∧
       (dealerUpdate 0.9 0.1 ⟨0.5, 0.5⟩ [(3 : ℝ)] 1 false).1.p < 1/20 ∧
       (dealerUpdate 0.9 0.1 ⟨0.5, 0.5⟩ [(3 : ℝ)] 1 false).2.feedback < 0 ∧
       1/2 < (dealerUpdate 0.9 0.1 ⟨0.5, 0.5⟩ [(3 : ℝ)] 1 false).1.q ∧
       (dealerUpdate 0.9 0.1 ⟨0.5, 0.5⟩ [(3 : ℝ)] 1 false).1.q < 1)) :=
  ⟨⟨by norm_num,
    C7_dealer_posterior_monotone_and_flip_scenario.1 0.9 0.1 ⟨0.5, 0.5⟩ 1 false
      [(0 : ℝ)] [(1 : ℝ)] (by norm_num)⟩,
   by norm_num, by norm_num, by norm_num, by norm_num, by norm_num, by norm_num,
   C7_dealer_posterior_monotone_and_flip_scenario.2 0.9 0.1 ⟨0.5, 0.5⟩ [(3 : ℝ)]
     (by norm_num) (by norm_num) (by norm_num) (by norm_num) (by norm_num) (by norm_num)⟩

/-- The list of forward-map entries produced after `n` un-interrupted loop
iterations: entry `i` (0-based) carries horizon `i+1`, mass
`λ·(1−λ)^i`, and the fixed distribution `h`. -/
noncomputable def geomList (lam : ℝ) (h : List ℝ) (n : ℕ) : List FwdEntry :=
  (List.range n).map (fun i : ℕ => ⟨i + 1, lam * (1 - lam) ^ i, h⟩)

theorem geomList_length (lam : ℝ) (h : List ℝ) (n : ℕ) :
    (geomList lam h n).length = n := by simp [geomList]

theorem geomList_succ (lam : ℝ) (h : List ℝ) (n : ℕ) :
    geomList lam h (n + 1) =
      geomList lam h n ++ [⟨n + 1, lam * (1 - lam) ^ n, h⟩] := by
  simp [geomList, List.range_succ]

theorem geomList_mass_sum (lam : ℝ) (h : List ℝ) (n : ℕ) :
    ((geomList lam h n).map (fun e => e.mass)).sum = 1 - (1 - lam) ^ n := by
  induction n with
  | zero => simp [geomList]
  | succ n ih =>
    rw [geomList_succ]
    simp only [List.map_append, List.sum_append, ih, List.map_cons, List.map_nil,
      List.sum_cons, List.sum_nil]
    rw [pow_succ]
    ring

theorem geomList_take (lam : ℝ) (h : List ℝ) {j n : ℕ} (hj : j ≤ n) :
    (geomList lam h n).take j = geomList lam h j := by
  unfold geomList
  rw [← List.map_take, List.take_range, min_eq_left hj]

theorem geomList_get (lam : ℝ) (h : List ℝ) (n i : ℕ)
    (hi : i < (geomList lam h n).length) :
    (geomList lam h n).get ⟨i, hi⟩ = ⟨i + 1, lam * (1 - lam) ^ i, h⟩ := by
  simp [geomList]

theorem geomList_dist (lam : ℝ) (h : List ℝ) (n : ℕ) :
    ∀ e ∈ geomList lam h n, e.dist = h := by
  intro e he
  simp only [geomList, List.mem_map] at he
  obtain ⟨i, -, rfl⟩ := he
  rfl

theorem fwdGo_zero (lam θ : ℝ) (h : List ℝ) (k : ℕ) (surv cum : ℝ)
    (acc : List FwdEntry) :
    fwdGo lam θ h 0 k surv cum acc = (acc.reverse, cum) := rfl

theorem fwdGo_succ (lam θ : ℝ) (h : List ℝ) (fuel k : ℕ) (surv cum : ℝ)
    (acc : List FwdEntry) :
    fwdGo lam θ h (fuel + 1) k surv cum acc =
      (if cum + lam * surv ≥ θ then
        ((FwdEntry.mk k (lam * surv) h :: acc).reverse, cum + lam * surv)
       else fwdGo lam θ h fuel (k + 1) (surv * (1 - lam)) (cum + lam * surv)
         (FwdEntry.mk k (lam * surv) h :: acc)) := rfl

/-- Loop invariant for `fwdGo`: starting from a state that encodes `n`
completed iterations, the loop returns some `geomList` prefix, records its
mass sum as cumulative mass, keeps `cum + survival = 1`, stops only at fuel
exhaustion or at the first cumulative mass ≥ θ, and never runs past θ. -/
theorem fwdGo_spec (lam θ : ℝ) (h : List ℝ) (hl0 : 0 < lam) (hl1 : lam < 1) :
    ∀ (fuel : ℕ) (acc : List FwdEntry) (cum surv : ℝ),
      acc.reverse = geomList lam h acc.length →
      surv = (1 - lam) ^ acc.length →
      cum + surv = 1 →
      (∀ j : ℕ, 1 ≤ j → j ≤ acc.length → 1 - (1 - lam) ^ j < θ) →
      ∃ m : ℕ, acc.length ≤ m ∧ m ≤ fuel + acc.length ∧
        (fwdGo lam θ h fuel (acc.length + 1) surv cum acc).1 = geomList lam h m ∧
        (fwdGo lam θ h fuel (acc.length + 1) surv cum acc).2 = 1 - (1 - lam) ^ m ∧
        (m = fuel + acc.length ∨ θ ≤ (fwdGo lam θ h fuel (acc.length + 1) surv cum acc).2) ∧
        (∀ j : ℕ, 1 ≤ j → j < m → 1 - (1 - lam) ^ j < θ) := by
  intro fuel
  induction fuel with
  | zero =>
    intro acc cum surv h1 h2 h3 h5
    refine ⟨acc.length, le_refl _, by omega, ?_, ?_, Or.inl (by omega), ?_⟩
    · rw [fwdGo_zero]; exact h1
    · rw [fwdGo_zero]; show cum = 1 - (1 - lam) ^ acc.length
      rw [← h2]; linarith
    · intro j hj1 hj2; exact h5 j hj1 (by omega)
  | succ fuel ih =>
    intro acc cum surv h1 h2 h3 h5
    rw [fwdGo_succ]
    have hpow : (1 - lam) ^ (acc.length + 1) = (1 - lam) ^ acc.length * (1 - lam) :=
      pow_succ _ _
    have hcum' : cum + lam * surv = 1 - (1 - lam) ^ (acc.length + 1) := by
      rw [hpow, ← h2]; nlinarith [h3]
    have hrev : (FwdEntry.mk (acc.length + 1) (lam * surv) h :: acc).reverse =
        geomList lam h (acc.length + 1) := by
      rw [List.reverse_cons, h1, h2, geomList_succ]
    by_cases hstop : cum + lam * surv ≥ θ
    · rw [if_pos hstop]
      refine ⟨acc.length + 1, by omega, by omega, hrev, hcum', Or.inr hstop, ?_⟩
      intro j hj1 hj2
      exact h5 j hj1 (by omega)
    · rw [if_neg hstop]
      have h5' : ∀ j : ℕ, 1 ≤ j → j ≤ acc.length + 1 → 1 - (1 - lam) ^ j < θ := by
        intro j hj1 hj2
        rcases Nat.lt_or_ge j (acc.length + 1) with hlt | hge
        · exact h5 j hj1 (by omega)
        · have : j = acc.length + 1 := by omega
          subst this
          rw [← hcum']
          exact lt_of_not_ge hstop
      have hlen : (FwdEntry.mk (acc.length + 1) (lam * surv) h :: acc).length =
          acc.length + 1 := rfl
      have hsum' : (cum + lam * surv) + surv * (1 - lam) = 1 := by
        have hs : lam * surv + surv * (1 - lam) = surv := by ring
        linarith [h3, hs]
      have := ih (FwdEntry.mk (acc.length + 1) (lam * surv) h :: acc)
        (cum + lam * surv) (surv * (1 - lam))
        (by rw [hlen, hrev])
        (by rw [hlen, hpow, h2])
        hsum'
        (by rw [hlen]; exact h5')
      rw [hlen] at this
      obtain ⟨m, hm1, hm2, hm3, hm4, hm5, hm6⟩ := this
      refine ⟨m, by omega, by omega, hm3, hm4, ?_, hm6⟩
      rcases hm5 with he | hθ
      · exact Or.inl (by omega)
      · exact Or.inr hθ

theorem geomList_getD (lam : ℝ) (h : List ℝ) (n i : ℕ) (hi : i < n) (d : FwdEntry) :
    (geomList lam h n).getD i d = ⟨i + 1, lam * (1 - lam) ^ i, h⟩ := by
  rw [List.getD_eq_getElem _ _ (by simpa [geomList_length] using hi)]
  simp [geomList]

/-- Theorem: `ForwardMap.compute` returns a geometric prefix: some `m ≤ max_horizon`
entries with cumulative mass `1 − (1−λ)^m`, stopping at fuel exhaustion or
the threshold, never having crossed the threshold before the last entry. -/
theorem fwdCompute_geom (betaL : ℝ) (maxH : ℕ) (θ : ℝ) (grid : List ℝ)
    (lam price σ : ℝ) (lvals : List ℝ) (hl0 : 0 < lam) (hl1 : lam < 1) :
    ∃ m : ℕ, m ≤ maxH ∧
      (fwdCompute betaL maxH θ grid lam price σ lvals).1 =
        geomList lam (fwdDist betaL grid lvals) m ∧
      (fwdCompute betaL maxH θ grid lam price σ lvals).2 = 1 - (1 - lam) ^ m ∧
      (m = maxH ∨ θ ≤ (fwdCompute betaL maxH θ grid lam price σ lvals).2) ∧
      (∀ j : ℕ, 1 ≤ j → j < m → 1 - (1 - lam) ^ j < θ) := by
  have hspec := fwdGo_spec lam θ (fwdDist betaL grid lvals) hl0 hl1 maxH [] 0 1
    (by simp [geomList]) (by simp) (by norm_num)
    (by intro j hj1 hj2; simp only [List.length_nil] at hj2; omega)
  simp only [List.length_nil, Nat.zero_add, Nat.add_zero] at hspec
  obtain ⟨m, -, hm2, hm3, hm4, hm5, hm6⟩ := hspec
  exact ⟨m, hm2, hm3, hm4, hm5, hm6⟩

/-- Sums distribute over pointwise division. -/
theorem sum_map_div (l : List ℝ) (c : ℝ) :
    (l.map (fun x => x / c)).sum = l.sum / c := by
  induction l with
  | nil => simp
  | cons a t ih => simp [ih, add_div]

/-- Every element of the tilted kernel list is positive when the base list
is positive. -/
theorem zipWith_tilt_pos (betaL : ℝ) :
    ∀ (l1 l2 : List ℝ), (∀ x ∈ l1, 0 < x) →
      ∀ y ∈ List.zipWith (fun h l => h * Real.exp (betaL * l)) l1 l2, 0 < y := by
  intro l1
  induction l1 with
  | nil => intro l2 _ y hy; simp at hy
  | cons a t ih =>
    intro l2 hpos y hy
    cases l2 with
    | nil => simp at hy
    | cons b s =>
      simp only [List.zipWith_cons_cons, List.mem_cons] at hy
      rcases hy with rfl | hy
      · exact mul_pos (hpos a (by simp)) (Real.exp_pos _)
      · exact ih s (fun x hx => hpos x (by simp [hx])) y hy

/-- The renormalized per-horizon distribution sums to 1 whenever the grid
and liquidity vector are nonempty. -/
theorem fwdDist_sum (betaL : ℝ) (grid lvals : List ℝ)
    (hg : grid ≠ []) (hv : lvals ≠ []) :
    (fwdDist betaL grid lvals).sum = 1 := by
  unfold fwdDist
  set h0 := grid.map (fun z => Real.exp (-(0.5) * z ^ 2) / Real.sqrt (2 * Real.pi)) with hh0
  set hRaw := List.zipWith (fun h l => h * Real.exp (betaL * l)) h0 lvals with hhr
  have hpos : ∀ y ∈ hRaw, 0 < y := by
    apply zipWith_tilt_pos
    intro x hx
    rw [hh0] at hx
    simp only [List.mem_map] at hx
    obtain ⟨z, -, rfl⟩ := hx
    exact div_pos (Real.exp_pos _) (Real.sqrt_pos.mpr (by positivity))
  have hne : hRaw ≠ [] := by
    rw [hhr, hh0]
    cases grid with
    | nil => exact absurd rfl hg
    | cons a t =>
      cases lvals with
      | nil => exact absurd rfl hv
      | cons b s => simp
  have hsum : 0 < hRaw.sum := List.sum_pos hRaw hpos hne
  rw [sum_map_div]
  exact div_self (ne_of_gt hsum)

/-- C2: (general part) for 0 < λ < 1 on nonempty grid/liquidity inputs, the
k-th entry's mass is λ·(1−λ)^(k−1), every per-entry dist sums to 1, cum_mass
is the sum of the returned masses and is ≤ 1, at most max_horizon entries are
returned, the loop ends at the horizon or at cum_mass ≥ threshold, and no
proper prefix of the returned entries had already reached the threshold;
(concrete part) with λ = 0.5, max_horizon = 20, mass_threshold = 0.95 the
map has exactly 5 entries with masses [0.5, 0.25, 0.125, 0.0625, 0.03125]. -/
theorem C2_forward_map_masses_and_truncation :
    (∀ (betaL θ : ℝ) (maxH : ℕ) (grid lvals : List ℝ) (lam price σ : ℝ),
      0 < lam → lam < 1 → grid ≠ [] → lvals ≠ [] →
      (∀ i : ℕ, i < (fwdCompute betaL maxH θ grid lam price σ lvals).1.length →
        ((fwdCompute betaL maxH θ grid lam price σ lvals).1.getD i ⟨0, 0, []⟩).k = i + 1 ∧
        ((fwdCompute betaL maxH θ grid lam price σ lvals).1.getD i ⟨0, 0, []⟩).mass =
          lam * (1 - lam) ^ i) ∧
      (∀ e ∈ (fwdCompute betaL maxH θ grid lam price σ lvals).1, e.dist.sum = 1) ∧
      (fwdCompute betaL maxH θ grid lam price σ lvals).2 =
        ((fwdCompute betaL maxH θ grid lam price σ lvals).1.map (fun e => e.mass)).sum ∧
      (fwdCompute betaL maxH θ grid lam price σ lvals).2 ≤ 1 ∧
      (fwdCompute betaL maxH θ grid lam price σ lvals).1.length ≤ maxH ∧
      ((fwdCompute betaL maxH θ grid lam price σ lvals).1.length = maxH ∨
        θ ≤ (fwdCompute betaL maxH θ grid lam price σ lvals).2) ∧
      (∀ j : ℕ, 1 ≤ j → j < (fwdCompute betaL maxH θ grid lam price σ lvals).1.length →
        (((fwdCompute betaL maxH θ grid lam price σ lvals).1.take j).map (fun e => e.mass)).sum < θ)) ∧
    (∀ (betaL : ℝ) (grid lvals : List ℝ) (price σ : ℝ),
      ((fwdCompute betaL 20 0.95 grid (1/2) price σ lvals).1.map (fun e => e.mass)) =
        [0.5, 0.25, 0.125, 0.0625, 0.03125] ∧
      (fwdCompute betaL 20 0.95 grid (1/2) price σ lvals).1.length = 5) := by
  constructor
  · intro betaL θ maxH grid lvals lam price σ hl0 hl1 hg hv
    obtain ⟨m, hm, hE1, hE2, hstp, hpre⟩ :=
      fwdCompute_geom betaL maxH θ grid lam price σ lvals hl0 hl1
    have hlen : (fwdCompute betaL maxH θ grid lam price σ lvals).1.length = m := by
      rw [hE1, geomList_length]
    refine ⟨?_, ?_, ?_, ?_, ?_, ?_, ?_⟩
    · intro i hi
      rw [hlen] at hi
      rw [hE1, geomList_getD lam _ m i hi]
      exact ⟨rfl, rfl⟩
    · intro e he
      rw [hE1] at he
      rw [geomList_dist lam _ m e he]
      exact fwdDist_sum betaL grid lvals hg hv
    · rw [hE1, geomList_mass_sum, hE2]
    · rw [hE2]
      have : (0 : ℝ) ≤ (1 - lam) ^ m := pow_nonneg (by linarith) m
      linarith
    · rw [hlen]; exact hm
    · rw [hlen]; exact hstp
    · intro j hj1 hj2
      rw [hlen] at hj2
      rw [hE1, geomList_take lam _ (le_of_lt hj2), geomList_mass_sum]
      exact hpre j hj1 hj2
  · intro betaL grid lvals price σ
    obtain ⟨m, hm, hE1, hE2, hstp, hpre⟩ :=
      fwdCompute_geom betaL 20 0.95 grid (1/2) price σ lvals (by norm_num) (by norm_num)
    have hm5 : m = 5 := by
      have hle : ¬ (5 < m) := by
        intro hc
        have := hpre 5 (by norm_num) hc
        norm_num at this
      have hge : 5 ≤ m := by
        by_contra hc
        push_neg at hc
        have hm4 : m ≤ 4 := by omega
        rcases hstp with h20 | hθ
        · omega
        · rw [hE2] at hθ
          have hp : ((1 : ℝ)/2) ^ 4 ≤ ((1 : ℝ)/2) ^ m :=
            pow_le_pow_of_le_one (by norm_num) (by norm_num) hm4
          norm_num at hp hθ
          linarith
      omega
    subst hm5
    constructor
    · rw [hE1]
      rw [show geomList (1/2 : ℝ) (fwdDist betaL grid lvals) 5 =
        (List.range 5).map (fun i : ℕ =>
          (⟨i + 1, (1/2 : ℝ) * (1 - 1/2) ^ i, fwdDist betaL grid lvals⟩ : FwdEntry)) from rfl]
      rw [show List.range 5 = [0, 1, 2, 3, 4] from rfl]
      simp only [List.map_cons, List.map_nil]
      norm_num
    · rw [hE1, geomList_length]

/-- Witness for C2 at λ = ½ on the default grid: cum_mass ≤ 1. -/
theorem C2_witness :
    (0 : ℝ) < 1/2 ∧ (1/2 : ℝ) < 1 ∧ zGrid ≠ [] ∧
    (fwdCompute 0 20 (19/20) zGrid (1/2) 1 1 zGrid).2 ≤ 1 :=
  ⟨by norm_num, by norm_num, by rw [zGrid_eq_range]; simp,
   (C2_forward_map_masses_and_truncation.1 0 (19/20) 20 zGrid zGrid (1/2) 1 1
     (by norm_num) (by norm_num) (by rw [zGrid_eq_range]; simp)
     (by rw [zGrid_eq_range]; simp)).2.2.2.1⟩

/-- For an odd-length list bounded by `M` in which at most `m` of the
`2m + 1` elements equal `M`, the median is strictly below `M`. -/
theorem npMedian_lt_of_few_max (xs : List ℝ) (M : ℝ) (m : ℕ)
    (hlen : xs.length = 2 * m + 1)
    (hle : ∀ x ∈ xs, x ≤ M)
    (hcnt : (xs.filter (fun x => decide (x = M))).length ≤ m) :
    npMedian xs < M := by
  have hperm : (npSort xs).Perm xs := List.perm_insertionSort _ _
  have hsorted : List.Sorted (· ≤ ·) (npSort xs) := List.sorted_insertionSort _ _
  have hslen : (npSort xs).length = 2 * m + 1 := by rw [hperm.length_eq, hlen]
  have hmod : xs.length % 2 = 1 := by omega
  have hdiv : xs.length / 2 = m := by omega
  have hmlt : m < (npSort xs).length := by omega
  have hmed : npMedian xs = (npSort xs).getD m 0 := by
    unfold npMedian
    rw [if_pos hmod, hdiv]
  rw [hmed, List.getD_eq_getElem _ _ hmlt]
  have hmem : (npSort xs)[m] ∈ xs := hperm.mem_iff.mp (List.getElem_mem hmlt)
  rcases lt_or_eq_of_le (hle _ hmem) with hlt | heq
  · exact hlt
  · exfalso
    have hdropall : ∀ y ∈ (npSort xs).drop m, y = M := by
      intro y hy
      obtain ⟨i, hilt, hig⟩ := List.mem_iff_getElem.mp hy
      have hmi : m + i < (npSort xs).length := by
        rw [List.length_drop] at hilt
        omega
      have hgi : ((npSort xs).drop m)[i] = (npSort xs)[m + i] := List.getElem_drop _
      have hlow : (npSort xs)[m] ≤ (npSort xs)[m + i] := by
        have := hsorted.rel_get_of_le
          (show (⟨m, hmlt⟩ : Fin (npSort xs).length) ≤ ⟨m + i, hmi⟩ by
            simp [Fin.le_def])
        simpa using this
      have hup : (npSort xs)[m + i] ≤ M :=
        hle _ (hperm.mem_iff.mp (List.getElem_mem hmi))
      rw [← hig, hgi]
      rw [heq] at hlow
      linarith
    have hdropfilter :
        ((npSort xs).drop m).filter (fun x => decide (x = M)) = (npSort xs).drop m :=
      List.filter_eq_self.mpr (fun a ha => by rw [hdropall a ha]; simp)
    have hdlen : ((npSort xs).drop m).length = m + 1 := by
      rw [List.length_drop, hslen]
      omega
    have hbig : m + 1 ≤ ((npSort xs).filter (fun x => decide (x = M))).length := by
      conv_rhs => rw [← List.take_append_drop m (npSort xs)]
      rw [List.filter_append, List.length_append, hdropfilter, hdlen]
      omega
    have heqlen : (xs.filter (fun x => decide (x = M))).length =
        ((npSort xs).filter (fun x => decide (x = M))).length :=
      ((hperm.filter _).length_eq).symm
    omega

/-! ### The C1 counterexample inputs: first tick, close = high = low = 1,
volume = 1, ask = bid = 1, with all hazard coefficients zero except
`c_pool = 1` (and unit liquidity weights). -/

noncomputable def barCex : Bar := ⟨0, 1, 1, 1, 1⟩

noncomputable def quoteCex : Quote := ⟨1, 1⟩

noncomputable def sigmaCex : ℝ := (sigmaUpdate 120 sigmaInit 0).2

noncomputable def compsCex : Components := ⟨some 1, some ⟨1, 1, 1⟩⟩

noncomputable def lTotalCex : List ℝ :=
  zGrid.map (liqRaw 1 1 (Real.log 1) sigmaCex compsCex)

noncomputable def liqCex : List ℝ :=
  liqComputeField 1 1 zGrid (Real.log 1) sigmaCex compsCex

/-- On the first tick with price 1 and volume 1 the technicals return
vwap = 1 and a degenerate Bollinger block (1, 1, 1). -/
theorem techCex_values :
    (techUpdate techInit 1 1).2.vwap = 1 ∧
    (techUpdate techInit 1 1).2.bb.mb = 1 ∧
    (techUpdate techInit 1 1).2.bb.ub = 1 ∧
    (techUpdate techInit 1 1).2.bb.lb = 1 := by
  refine ⟨?_, rfl, rfl, rfl⟩
  show (if (0 : ℝ) + 1 > 0 then ((0 : ℝ) + 1 * 1) / ((0 : ℝ) + 1) else 1) = 1
  norm_num

/-- With all reference prices at the current price, the raw field is a pair
of centred Gaussian bumps. -/
theorem liqRawCex (σ z : ℝ) :
    liqRaw 1 1 (Real.log 1) σ compsCex z =
      gaussianKernel z 0.35 + 2.4 * gaussianKernel z 0.30 := by
  unfold liqRaw compsCex
  simp only [Real.log_one]
  norm_num
  ring

/-- A Gaussian kernel is at most 1, with equality only at the centre. -/
theorem gaussianKernel_le_one (z bw : ℝ) : gaussianKernel z bw ≤ 1 := by
  unfold gaussianKernel
  rw [show (1 : ℝ) = Real.exp 0 from Real.exp_zero.symm]
  apply Real.exp_le_exp.mpr
  nlinarith [sq_nonneg (z / bw)]

theorem gaussianKernel_lt_one (z bw : ℝ) (hz : z ≠ 0) (hbw : bw ≠ 0) :
    gaussianKernel z bw < 1 := by
  unfold gaussianKernel
  rw [show (1 : ℝ) = Real.exp 0 from Real.exp_zero.symm]
  apply Real.exp_lt_exp.mpr
  have hq : 0 < (z / bw) ^ 2 := by positivity
  nlinarith

theorem gaussianKernel_pos (z bw : ℝ) : 0 < gaussianKernel z bw := Real.exp_pos _

theorem gaussianKernel_zero (bw : ℝ) : gaussianKernel 0 bw = 1 := by
  unfold gaussianKernel
  norm_num

/-- The raw field attains 3.4 at the centre. -/
theorem liqRawCex_at_zero (σ : ℝ) :
    liqRaw 1 1 (Real.log 1) σ compsCex 0 = 3.4 := by
  rw [liqRawCex, gaussianKernel_zero, gaussianKernel_zero]
  norm_num

theorem liqRawCex_le (σ z : ℝ) :
    liqRaw 1 1 (Real.log 1) σ compsCex z ≤ 3.4 := by
  rw [liqRawCex]
  have h1 := gaussianKernel_le_one z 0.35
  have h2 := gaussianKernel_le_one z 0.30
  nlinarith

theorem liqRawCex_lt (σ z : ℝ) (hz : z ≠ 0) :
    liqRaw 1 1 (Real.log 1) σ compsCex z < 3.4 := by
  rw [liqRawCex]
  have h1 := gaussianKernel_lt_one z 0.35 hz (by norm_num)
  have h2 := gaussianKernel_lt_one z 0.30 hz (by norm_num)
  nlinarith

theorem lTotalCex_length : lTotalCex.length = 33 := by
  unfold lTotalCex
  rw [List.length_map, zGrid, List.length_map, zGridQ_length]

/-- The grid point at the centre index is z = 0. -/
theorem zGrid_get16 (h : 16 < zGrid.length) : zGrid[16] = 0 := by
  simp only [zGrid_eq_range]
  rw [List.getElem_map, List.getElem_range]
  norm_num

theorem lTotalCex_get16 (h : 16 < lTotalCex.length) : lTotalCex[16] = 3.4 := by
  unfold lTotalCex at h ⊢
  rw [List.getElem_map]
  rw [zGrid_get16 (by simpa using h)]
  exact liqRawCex_at_zero _

theorem lTotalCex_le : ∀ x ∈ lTotalCex, x ≤ 3.4 := by
  intro x hx
  unfold lTotalCex at hx
  simp only [List.mem_map] at hx
  obtain ⟨z, -, rfl⟩ := hx
  exact liqRawCex_le _ z

/-- At most one grid value (the centre) attains the maximum 3.4. -/
theorem lTotalCex_count :
    (lTotalCex.filter (fun x => decide (x = (3.4 : ℝ)))).length ≤ 16 := by
  unfold lTotalCex
  rw [zGrid_eq_range, List.map_map, List.filter_map]
  rw [List.filter_congr (q := fun i : ℕ => decide (i = 16)) ?_]
  · rw [List.length_map]
    have : ((List.range 33).filter (fun i : ℕ => decide (i = 16))).length = 1 := by decide
    omega
  · intro i hi
    simp only [Function.comp_apply, decide_eq_decide]
    constructor
    · intro hv
      by_contra hne
      have hz : (-4 : ℝ) + (i : ℝ) * (1/4) ≠ 0 := by
        intro h0
        apply hne
        have : (i : ℝ) = 16 := by linarith
        exact_mod_cast this
      exact absurd hv (ne_of_lt (liqRawCex_lt _ _ hz))
    · intro hv
      subst hv
      rw [show (-4 : ℝ) + (16 : ℕ) * (1/4) = 0 by push_cast; ring]
      exact liqRawCex_at_zero _

theorem lTotalCex_median_lt : npMedian lTotalCex < 3.4 :=
  npMedian_lt_of_few_max lTotalCex 3.4 16 (by rw [lTotalCex_length])
    lTotalCex_le lTotalCex_count

theorem madDivisor_pos (x : ℝ) : 0 < madDivisor x := by
  unfold madDivisor
  split
  · linarith [show (0 : ℝ) < 1e-9 by norm_num]
  · norm_num

/-- The pool proximity of the counterexample liquidity field is strictly
positive: the centre value exceeds the median. -/
theorem liqCex_pool_pos : 0 < getPoolProximity liqCex := by
  have hL : liqCex = lTotalCex.map (fun x =>
      clip (-6) 6 ((x - npMedian lTotalCex) /
        madDivisor (npMedian (lTotalCex.map (fun y => |y - npMedian lTotalCex|))))) := rfl
  have hlen : liqCex.length = 33 := by
    rw [hL, List.length_map, lTotalCex_length]
  unfold getPoolProximity
  rw [hlen]
  have h16 : (16 : ℕ) < liqCex.length := by omega
  rw [List.getD_eq_getElem _ _ (by omega)]
  have h16' : (16 : ℕ) < lTotalCex.length := by rw [lTotalCex_length]; omega
  have hget : liqCex[16] = clip (-6) 6
      ((lTotalCex[16] - npMedian lTotalCex) /
        madDivisor (npMedian (lTotalCex.map (fun y => |y - npMedian lTotalCex|)))) := by
    simp only [hL, List.getElem_map]
  rw [hget, lTotalCex_get16 h16']
  have hnum : 0 < (3.4 : ℝ) - npMedian lTotalCex := by
    linarith [lTotalCex_median_lt]
  have hdiv : 0 < ((3.4 : ℝ) - npMedian lTotalCex) /
      madDivisor (npMedian (lTotalCex.map (fun y => |y - npMedian lTotalCex|))) :=
    div_pos hnum (madDivisor_pos _)
  unfold clip
  exact lt_max_of_lt_right (lt_min (by norm_num) hdiv)

/-- The logistic value of a positive argument exceeds ½. -/
theorem logistic_gt_half (x : ℝ) (hx : 0 < x) :
    1/2 < 1 / (1 + Real.exp (-x)) := by
  have he : Real.exp (-x) < 1 := by
    have h0 := Real.exp_lt_exp.mpr (show -x < 0 by linarith)
    simpa [Real.exp_zero] using h0
  rw [lt_div_iff₀ (by positivity)]
  linarith

/-- The λ actually emitted on the counterexample tick is exactly ½ (all
intercepts and coefficients are zero except `c_pool`, and the code passes
`pool_prox = 0`). -/
theorem processCex_lambda :
    (processTick cfgA zGrid procInit (some barCex) quoteCex).2.map (fun s => s.lambdaT) =
      some (1/2 : ℝ) := by
  simp only [processTick, Option.map_some, Option.some.injEq, hazardCompute, cfgA]
  norm_num [ite_self, Real.exp_zero]

/-- The pool field recorded in the counterexample snapshot is `liqCex`. -/
theorem processCex_pool :
    (processTick cfgA zGrid procInit (some barCex) quoteCex).2.map (fun s => s.poolField) =
      some liqCex := by
  simp only [processTick, Option.map_some, Option.some.injEq, procInit, barCex, cfgA]
  obtain ⟨hv, hmb, hub, hlb⟩ := techCex_values
  rw [hv, hmb, hub, hlb]
  simp only [liqCex, sigmaCex, compsCex]
  rfl

/-- C1 counterexample: the claim "the emitted λ equals
`HazardModel.compute(ichi.state, part.annihilation, 0, tech.bb.squeeze,
L[centre], 0, 0)`" is false.  With zero intercepts, `c_pool = 1` and a
first tick at price 1, the code emits λ = ½ (it hardwires `pool_prox = 0`
at `worker.py:48`), while the claimed expression evaluates the logistic at
the strictly positive centre value of the liquidity field, which exceeds ½. -/
theorem C1_counterexample :
    ¬ (∀ (cfg : Config) (st : ProcState) (bar : Bar) (q : Quote) (s : MarketState),
        (processTick cfg zGrid st (some bar) q).2 = some s →
        s.lambdaT = hazardCompute cfg.i0 cfg.i1 cfg.i2 cfg.cA cfg.cPL cfg.cSq cfg.cPool
          (ichiUpdate st.ichi bar.high bar.low bar.close).2.state
          (particleUpdate cfg.eps cfg.wShock 0.01 q.askPrice q.bidPrice 0 0 0 0 0 0).2.annihilation
          0
          (techUpdate st.tech bar.close bar.volume).2.bb.squeeze
          (getPoolProximity s.poolField) 0 0) := by
  intro h
  cases hE : (processTick cfgA zGrid procInit (some barCex) quoteCex).2 with
  | none =>
    have hc := processCex_lambda
    rw [hE] at hc
    simp at hc
  | some s =>
    have h1 : s.lambdaT = 1/2 := by
      have hc := processCex_lambda
      rw [hE] at hc
      simpa using hc
    have h2 : s.poolField = liqCex := by
      have hc := processCex_pool
      rw [hE] at hc
      simpa using hc
    have happ := h cfgA procInit barCex quoteCex s hE
    rw [h1, h2] at happ
    have hgt : 1/2 < hazardCompute cfgA.i0 cfgA.i1 cfgA.i2 cfgA.cA cfgA.cPL cfgA.cSq cfgA.cPool
        (ichiUpdate procInit.ichi barCex.high barCex.low barCex.close).2.state
        (particleUpdate cfgA.eps cfgA.wShock 0.01 quoteCex.askPrice quoteCex.bidPrice 0 0 0 0 0 0).2.annihilation
        0
        (techUpdate procInit.tech barCex.close barCex.volume).2.bb.squeeze
        (getPoolProximity liqCex) 0 0 := by
      simp only [hazardCompute, cfgA]
      simp [ite_self]
      simpa [one_div] using logistic_gt_half _ liqCex_pool_pos
    rw [← happ] at hgt
    exact lt_irrefl _ hgt

end Gnosis
